import Mathlib

/-!
Verification of the 0/1 knapsack solver in `src/Museum.py`.

The Python class `Museum` holds 1-indexed parallel lists `value`, `weight`
(index 0 is an unused placeholder), a capacity bound `capacity_max`, and
`n = len(value) - 1` items.  `__optimal_subset_value` fills the classic
dynamic-programming table, `__build_subset` backtracks over the finished
table to recover the chosen item indices, and `solve` derives display
statistics.  Python integers are modelled by `ℤ`; list indexing of table
cells, which the proofs show stays in range on the executed paths, is
modelled with `List.getD`.
-/

namespace Museum

/-- DP cell recurrence of `__optimal_subset_value` (src/Museum.py lines 53-68).
The imperative code allocates an all-zero table and fills rows `1..n`,
columns `1..Cmax`, from the previous row, so the finished content of cell
`(i, j)` satisfies exactly this recurrence: row `0` and column `0` keep
their initial `0`; for `i ≥ 1`, `j ≥ 1` the cell is `S[i-1][j]` when
`weight[i] > j` (item too heavy), and otherwise
`max (S[i-1][j]) (S[i-1][j - weight[i]] + value[i])` (skip vs. take). -/
def Scell (value weight : List ℤ) : ℕ → ℕ → ℤ
  | 0, _ => 0
  | i + 1, j =>
    if j = 0 then 0
    else if weight.getD (i + 1) 0 > (j : ℤ) then Scell value weight i j
    else max (Scell value weight i j)
      (Scell value weight i (j - (weight.getD (i + 1) 0).toNat) + value.getD (i + 1) 0)

/-- The table returned by `__optimal_subset_value` (lines 51-69):
`len(value)` rows (Python builds `n + 1` rows with `n = len(value) - 1`),
each with `Cmax + 1` columns (none when `Cmax < 0`, matching Python's
`range(Cmax + 1)`); entry `(i, j)` holds the value the fill loops leave
there, namely `Scell value weight i j`. -/
def optimal_subset_value (value weight : List ℤ) (Cmax : ℤ) : List (List ℤ) :=
  (List.range value.length).map fun i =>
    (List.range (Cmax + 1).toNat).map fun j => Scell value weight i j

/-- Python's in-range table read `S[i][j]` (out-of-range reads, which the
executed paths never perform, default to `0`). -/
def tget (S : List (List ℤ)) (i j : ℕ) : ℤ :=
  (S.getD i []).getD j 0

/-- Backtracking loop of `__build_subset` (lines 89-100) as a recursion on
the Python loop counter `i` (`for i in range(n, 0, -1)`), threading the
remaining capacity `r` (a Python int, so `ℤ`; the column read `S[i][r]`
is `tget S i r.toNat`, which agrees with Python indexing because `r`
stays nonnegative on tables built from valid inputs — theorem C8). -/
def buildAux (S : List (List ℤ)) (weight : List ℤ) : ℕ → ℤ → List ℕ
  | 0, _ => []
  | i + 1, r =>
    if tget S (i + 1) r.toNat ≠ tget S i r.toNat then
      (i + 1) :: buildAux S weight i (r - weight.getD (i + 1) 0)
    else buildAux S weight i r

/-- `__build_subset(S, value, weight, Cmax)` (lines 72-100): backtrack from
row `n = len(value) - 1` with remaining capacity `Cmax`. -/
def build_subset (S : List (List ℤ)) (value weight : List ℤ) (Cmax : ℤ) : List ℕ :=
  buildAux S weight (value.length - 1) Cmax

/-- The `(i, r)` states visited by the `__build_subset` loop, outermost
iteration first: state `(i, r)` means the loop body runs for item `i` with
remaining capacity `r`. -/
def backtrackStates (S : List (List ℤ)) (weight : List ℤ) : ℕ → ℤ → List (ℕ × ℤ)
  | 0, _ => []
  | i + 1, r =>
    (i + 1, r) ::
      (if tget S (i + 1) r.toNat ≠ tget S i r.toNat then
        backtrackStates S weight i (r - weight.getD (i + 1) 0)
      else backtrackStates S weight i r)

/-- `sum(value[i] for i in items)` (line 132 and the output guarantees). -/
def itemsValue (value : List ℤ) (items : List ℕ) : ℤ :=
  (items.map fun k => value.getD k 0).sum

/-- `sum(weight[i] for i in items)` (line 132). -/
def itemsWeight (weight : List ℤ) (items : List ℕ) : ℤ :=
  (items.map fun k => weight.getD k 0).sum

/-- Total value of a finite set of item indices (used to state what the
spec calls the maximum achievable value of a subset of items). -/
def setValue (value : List ℤ) (s : Finset ℕ) : ℤ :=
  ∑ k ∈ s, value.getD k 0

/-- Total weight of a finite set of item indices. -/
def setWeight (weight : List ℤ) (s : Finset ℕ) : ℤ :=
  ∑ k ∈ s, weight.getD k 0

/-- `s` is a subset of items `1..=i` whose total weight is at most `r`:
the feasible sets of the spec's cell characterisation. -/
def Fits (weight : List ℤ) (i : ℕ) (r : ℤ) (s : Finset ℕ) : Prop :=
  s ⊆ Finset.Icc 1 i ∧ setWeight weight s ≤ r

/-- `xs[1] + ... + xs[i]`, the sum over the 1-indexed prefix of length `i`. -/
def sumTo (xs : List ℤ) : ℕ → ℤ
  | 0 => 0
  | i + 1 => sumTo xs i + xs.getD (i + 1) 0

/-- `[i, i-1, ..., 1]`: all item indices in the order `__build_subset`
emits them. -/
def descRange : ℕ → List ℕ
  | 0 => []
  | i + 1 => (i + 1) :: descRange i

/-- The spec's preconditions on an input: `value` and `weight` have equal
length, the lists are nonempty (they carry at least the index-0
placeholder), every item value and weight is nonnegative, and the
capacity is nonnegative. -/
def Valid (value weight : List ℤ) (Cmax : ℤ) : Prop :=
  value.length = weight.length ∧ 1 ≤ value.length ∧
    (∀ k < value.length, 1 ≤ k → 0 ≤ value.getD k 0 ∧ 0 ≤ weight.getD k 0) ∧
    0 ≤ Cmax

instance (value weight : List ℤ) (Cmax : ℤ) : Decidable (Valid value weight Cmax) := by
  unfold Valid
  infer_instance

/-- The statistics `solve` (lines 102-143) derives and prints. -/
structure SolveStats where
  total_possible_subsets : ℤ
  matrix_size : ℤ
  amt_items_in_subset : ℕ
  items_in_subset : List ℕ
  total_weight : ℤ
  capacity : ℤ
  utilization : ℚ
  total_value : ℤ

/-- `Museum.solve` (lines 102-143): build the table, reconstruct the
subset, derive the statistics.  The capacity-utilization print on line 142
computes `total_weight / capacity_max`, which in Python raises
`ZeroDivisionError` exactly when `capacity_max == 0`; the raise is
modelled by `Except.error`. -/
def solve (value weight : List ℤ) (capacity_max : ℤ) : Except String SolveStats :=
  let S := optimal_subset_value value weight capacity_max
  let optimal_items := build_subset S value weight capacity_max
  let n := value.length - 1
  let total_weight := itemsWeight weight optimal_items
  if capacity_max = 0 then Except.error "ZeroDivisionError"
  else Except.ok
    { total_possible_subsets := 2 ^ n
      matrix_size := ((n : ℤ) + 1) * (capacity_max + 1)
      amt_items_in_subset := optimal_items.length
      items_in_subset := optimal_items.insertionSort fun a b => b ≤ a
      total_weight := total_weight
      capacity := capacity_max
      utilization := (total_weight : ℚ) / (capacity_max : ℚ) * 100
      total_value := tget S n capacity_max.toNat }

/-! Basic facts about the table cells. -/

/-- Column 0 of the table is never touched by the fill loops and stays 0. -/
lemma Scell_zero (value weight : List ℤ) : ∀ i, Scell value weight i 0 = 0
  | 0 => rfl
  | _ + 1 => by simp [Scell]

/-- Every cell of the table is nonnegative. -/
lemma Scell_nonneg (value weight : List ℤ) : ∀ i j, 0 ≤ Scell value weight i j
  | 0, _ => le_refl 0
  | i + 1, j => by
    rw [Scell]
    split
    · exact le_refl 0
    · split
      · exact Scell_nonneg value weight i j
      · exact le_max_of_le_left (Scell_nonneg value weight i j)

/-- Unfolding equation for a cell in a filled row. -/
lemma Scell_succ (value weight : List ℤ) (i j : ℕ) :
    Scell value weight (i + 1) j =
      if j = 0 then 0
      else if weight.getD (i + 1) 0 > (j : ℤ) then Scell value weight i j
      else max (Scell value weight i j)
        (Scell value weight i (j - (weight.getD (i + 1) 0).toNat) + value.getD (i + 1) 0) := by
  rw [Scell]

/-- Going down one row never decreases a cell (spec: `table[i][r] ≥ table[i-1][r]`). -/
lemma Scell_succ_ge (value weight : List ℤ) (i j : ℕ) :
    Scell value weight i j ≤ Scell value weight (i + 1) j := by
  rw [Scell_succ]
  split
  · next h => rw [h, Scell_zero]
  · split
    · exact le_refl _
    · exact le_max_left _ _

/-- Each row of the table is monotone in the capacity column. -/
lemma Scell_mono (value weight : List ℤ) :
    ∀ i {j j' : ℕ}, j ≤ j' → Scell value weight i j ≤ Scell value weight i j' := by
  intro i
  induction i with
  | zero => intro j j' _; exact le_refl 0
  | succ i ih =>
    intro j j' hjj
    rcases Nat.eq_zero_or_pos j with hj | hj
    · rw [hj, Scell_zero]; exact Scell_nonneg value weight (i + 1) j'
    have hj' : 0 < j' := lt_of_lt_of_le hj hjj
    rw [Scell_succ, Scell_succ]
    rw [if_neg (Nat.pos_iff_ne_zero.mp hj), if_neg (Nat.pos_iff_ne_zero.mp hj')]
    by_cases hw' : weight.getD (i + 1) 0 > (j' : ℤ)
    · have hw : weight.getD (i + 1) 0 > (j : ℤ) :=
        lt_of_le_of_lt (by exact_mod_cast hjj) hw'
      rw [if_pos hw, if_pos hw']
      exact ih hjj
    · rw [if_neg hw']
      by_cases hw : weight.getD (i + 1) 0 > (j : ℤ)
      · rw [if_pos hw]
        exact le_max_of_le_left (ih hjj)
      · rw [if_neg hw]
        exact max_le_max (ih hjj)
          (add_le_add_right (ih (Nat.sub_le_sub_right hjj _)) _)

/-- When item `i+1` is strictly heavier than the column, the cell copies
the row above. -/
lemma Scell_of_heavy (value weight : List ℤ) (i j : ℕ)
    (h : (j : ℤ) < weight.getD (i + 1) 0) :
    Scell value weight (i + 1) j = Scell value weight i j := by
  rw [Scell]
  rcases Nat.eq_zero_or_pos j with hj | hj
  · rw [if_pos hj, hj, Scell_zero]
  · rw [if_neg (Nat.pos_iff_ne_zero.mp hj), if_pos h]

/-- When a cell differs from the one above it, the item fits and the cell
holds the take option exactly. -/
lemma Scell_of_ne (value weight : List ℤ) (i j : ℕ)
    (h : Scell value weight (i + 1) j ≠ Scell value weight i j) :
    weight.getD (i + 1) 0 ≤ (j : ℤ) ∧
      Scell value weight (i + 1) j =
        Scell value weight i (j - (weight.getD (i + 1) 0).toNat) + value.getD (i + 1) 0 := by
  rcases Nat.eq_zero_or_pos j with hj | hj
  · exact absurd (by rw [hj, Scell_zero, Scell_zero]) h
  by_cases hw : weight.getD (i + 1) 0 > (j : ℤ)
  · exact absurd (Scell_of_heavy value weight i j hw) h
  refine ⟨not_lt.mp hw, ?_⟩
  have hrw : Scell value weight (i + 1) j =
      max (Scell value weight i j)
        (Scell value weight i (j - (weight.getD (i + 1) 0).toNat) + value.getD (i + 1) 0) := by
    rw [Scell, if_neg (Nat.pos_iff_ne_zero.mp hj), if_neg hw]
  rw [hrw]
  rw [hrw] at h
  rcases max_cases (Scell value weight i j)
      (Scell value weight i (j - (weight.getD (i + 1) 0).toNat) + value.getD (i + 1) 0) with
    ⟨heq, _⟩ | ⟨heq, _⟩
  · exact absurd heq h
  · exact heq

/-- The table has `len(value)` rows. -/
lemma optimal_subset_value_length (value weight : List ℤ) (Cmax : ℤ) :
    (optimal_subset_value value weight Cmax).length = value.length := by
  simp [optimal_subset_value]

/-- Every row of the table has `(Cmax + 1).toNat` columns. -/
lemma optimal_subset_value_row_length (value weight : List ℤ) (Cmax : ℤ) :
    ∀ row ∈ optimal_subset_value value weight Cmax, row.length = (Cmax + 1).toNat := by
  intro row hrow
  rcases List.mem_map.mp hrow with ⟨i, _, hi⟩
  simp [← hi]

/-- In-range reads of the built table are the recurrence cells. -/
lemma tget_optimal (value weight : List ℤ) (Cmax : ℤ) {i j : ℕ}
    (hi : i < value.length) (hj : j < (Cmax + 1).toNat) :
    tget (optimal_subset_value value weight Cmax) i j = Scell value weight i j := by
  have hrow : (optimal_subset_value value weight Cmax).getD i [] =
      (List.range (Cmax + 1).toNat).map fun j => Scell value weight i j := by
    unfold optimal_subset_value
    rw [List.getD_eq_getElem _ _ (by simpa using hi)]
    simp
  unfold tget
  rw [hrow, List.getD_eq_getElem _ _ (by simpa using hj)]
  simp

/-! Facts about the backtracking loop. -/

/-- Unfolding equation for one iteration of the `__build_subset` loop. -/
lemma buildAux_succ (S : List (List ℤ)) (weight : List ℤ) (i : ℕ) (r : ℤ) :
    buildAux S weight (i + 1) r =
      if tget S (i + 1) r.toNat ≠ tget S i r.toNat then
        (i + 1) :: buildAux S weight i (r - weight.getD (i + 1) 0)
      else buildAux S weight i r := by
  rw [buildAux]

/-- Unfolding equation for the visited states. -/
lemma backtrackStates_succ (S : List (List ℤ)) (weight : List ℤ) (i : ℕ) (r : ℤ) :
    backtrackStates S weight (i + 1) r =
      (i + 1, r) ::
        (if tget S (i + 1) r.toNat ≠ tget S i r.toNat then
          backtrackStates S weight i (r - weight.getD (i + 1) 0)
        else backtrackStates S weight i r) := by
  rw [backtrackStates]

lemma itemsValue_nil (value : List ℤ) : itemsValue value [] = 0 := rfl

lemma itemsValue_cons (value : List ℤ) (k : ℕ) (l : List ℕ) :
    itemsValue value (k :: l) = value.getD k 0 + itemsValue value l := by
  simp [itemsValue]

lemma itemsWeight_nil (weight : List ℤ) : itemsWeight weight [] = 0 := rfl

lemma itemsWeight_cons (weight : List ℤ) (k : ℕ) (l : List ℕ) :
    itemsWeight weight (k :: l) = weight.getD k 0 + itemsWeight weight l := by
  simp [itemsWeight]

/-- Every index the loop records lies between 1 and the starting loop
counter. -/
lemma buildAux_mem (S : List (List ℤ)) (weight : List ℤ) :
    ∀ i (r : ℤ), ∀ k ∈ buildAux S weight i r, 1 ≤ k ∧ k ≤ i := by
  intro i
  induction i with
  | zero => intro r k hk; exact absurd hk (List.not_mem_nil k)
  | succ i ih =>
    intro r k hk
    rw [buildAux_succ] at hk
    split at hk
    · rcases List.mem_cons.mp hk with h | h
      · omega
      · have := ih _ k h; omega
    · have := ih r k hk; omega

/-- The recorded indices are strictly decreasing along the returned list. -/
lemma buildAux_pairwise (S : List (List ℤ)) (weight : List ℤ) :
    ∀ i (r : ℤ), (buildAux S weight i r).Pairwise fun a b => b < a := by
  intro i
  induction i with
  | zero => intro r; exact List.Pairwise.nil
  | succ i ih =>
    intro r
    rw [buildAux_succ]
    split
    · exact List.Pairwise.cons
        (fun k hk => by have := buildAux_mem S weight i _ k hk; omega) (ih _)
    · exact ih r

/-- Core invariant of the reconstruction on the table built from the same
input: walking the loop from row `i` with remaining capacity `0 ≤ r ≤ Cmax`,
the recorded indices have total value exactly `S[i][r]` and total weight at
most `r`. -/
lemma buildAux_canonical (value weight : List ℤ) (Cmax : ℤ) (hC : 0 ≤ Cmax)
    (hw : ∀ k < value.length, 1 ≤ k → 0 ≤ weight.getD k 0) :
    ∀ i, i < value.length → ∀ r : ℤ, 0 ≤ r → r ≤ Cmax →
      itemsValue value (buildAux (optimal_subset_value value weight Cmax) weight i r) =
          Scell value weight i r.toNat ∧
        itemsWeight weight (buildAux (optimal_subset_value value weight Cmax) weight i r) ≤ r := by
  intro i
  induction i with
  | zero =>
    intro _ r hr0 _
    exact ⟨rfl, hr0⟩
  | succ i ih =>
    intro hilen r hr0 hrC
    have hjlt : r.toNat < (Cmax + 1).toNat := by omega
    have htg1 : tget (optimal_subset_value value weight Cmax) (i + 1) r.toNat =
        Scell value weight (i + 1) r.toNat := tget_optimal value weight Cmax hilen hjlt
    have htg0 : tget (optimal_subset_value value weight Cmax) i r.toNat =
        Scell value weight i r.toNat :=
      tget_optimal value weight Cmax (Nat.lt_of_succ_lt hilen) hjlt
    rw [buildAux_succ, htg1, htg0]
    by_cases hne : Scell value weight (i + 1) r.toNat ≠ Scell value weight i r.toNat
    · rw [if_pos hne]
      obtain ⟨hwle, heq⟩ := Scell_of_ne value weight i r.toNat hne
      have hw1 : 0 ≤ weight.getD (i + 1) 0 := hw (i + 1) hilen (by omega)
      have hwr : weight.getD (i + 1) 0 ≤ r := by
        rwa [Int.toNat_of_nonneg hr0] at hwle
      have hr0' : 0 ≤ r - weight.getD (i + 1) 0 := by omega
      have hrC' : r - weight.getD (i + 1) 0 ≤ Cmax := by omega
      have htn : (r - weight.getD (i + 1) 0).toNat = r.toNat - (weight.getD (i + 1) 0).toNat := by
        omega
      obtain ⟨ihv, ihw⟩ := ih (Nat.lt_of_succ_lt hilen) (r - weight.getD (i + 1) 0) hr0' hrC'
      constructor
      · rw [itemsValue_cons, ihv, htn, heq, add_comm]
      · rw [itemsWeight_cons]
        omega
    · rw [if_neg hne]
      rw [not_not] at hne
      obtain ⟨ihv, ihw⟩ := ih (Nat.lt_of_succ_lt hilen) r hr0 hrC
      exact ⟨by rw [ihv, hne], ihw⟩

/-- Safety invariant of the reconstruction: every state `(i, r)` the loop
visits keeps `1 ≤ i` below the starting row, `0 ≤ r ≤ Cmax`, and whenever
the row comparison differs, item `i` fits in the remaining capacity. -/
lemma backtrackStates_canonical (value weight : List ℤ) (Cmax : ℤ) (hC : 0 ≤ Cmax)
    (hw : ∀ k < value.length, 1 ≤ k → 0 ≤ weight.getD k 0) :
    ∀ i, i < value.length → ∀ r : ℤ, 0 ≤ r → r ≤ Cmax →
      ∀ p ∈ backtrackStates (optimal_subset_value value weight Cmax) weight i r,
        1 ≤ p.1 ∧ p.1 ≤ i ∧ 0 ≤ p.2 ∧ p.2 ≤ Cmax ∧
          (tget (optimal_subset_value value weight Cmax) p.1 p.2.toNat ≠
              tget (optimal_subset_value value weight Cmax) (p.1 - 1) p.2.toNat →
            weight.getD p.1 0 ≤ p.2) := by
  intro i
  induction i with
  | zero => intro _ r _ _ p hp; exact absurd hp (List.not_mem_nil p)
  | succ i ih =>
    intro hilen r hr0 hrC p hp
    have hjlt : r.toNat < (Cmax + 1).toNat := by omega
    have htg1 : tget (optimal_subset_value value weight Cmax) (i + 1) r.toNat =
        Scell value weight (i + 1) r.toNat := tget_optimal value weight Cmax hilen hjlt
    have htg0 : tget (optimal_subset_value value weight Cmax) i r.toNat =
        Scell value weight i r.toNat :=
      tget_optimal value weight Cmax (Nat.lt_of_succ_lt hilen) hjlt
    rw [backtrackStates_succ] at hp
    rcases List.mem_cons.mp hp with hphead | hptail
    · subst hphead
      refine ⟨by omega, by omega, hr0, hrC, ?_⟩
      intro hne
      rw [htg1] at hne
      simp only [Nat.add_sub_cancel] at hne
      rw [htg0] at hne
      obtain ⟨hwle, -⟩ := Scell_of_ne value weight i r.toNat hne
      rwa [Int.toNat_of_nonneg hr0] at hwle
    · split at hptail
      · next hne =>
        rw [htg1, htg0] at hne
        obtain ⟨hwle, -⟩ := Scell_of_ne value weight i r.toNat hne
        have hw1 : 0 ≤ weight.getD (i + 1) 0 := hw (i + 1) hilen (by omega)
        have hwr : weight.getD (i + 1) 0 ≤ r := by
          rwa [Int.toNat_of_nonneg hr0] at hwle
        have := ih (Nat.lt_of_succ_lt hilen) (r - weight.getD (i + 1) 0)
          (by omega) (by omega) p hptail
        exact ⟨this.1, by omega, this.2.2.1, this.2.2.2.1, this.2.2.2.2⟩
      · have := ih (Nat.lt_of_succ_lt hilen) r hr0 hrC p hptail
        exact ⟨this.1, by omega, this.2.2.1, this.2.2.2.1, this.2.2.2.2⟩

/-! The cell characterisation: with positive item weights, each cell is the
greatest value achievable by a feasible subset. -/

/-- Weights of indices drawn from `1..=i` are nonnegative under the
positivity hypothesis. -/
lemma setWeight_mem_nonneg (weight : List ℤ) {i : ℕ} {s : Finset ℕ}
    (hw : ∀ k, 1 ≤ k → k ≤ i → 1 ≤ weight.getD k 0) (hs : s ⊆ Finset.Icc 1 i) :
    ∀ x ∈ s, 0 ≤ weight.getD x 0 := by
  intro x hx
  have hx' := Finset.mem_Icc.mp (hs hx)
  exact le_trans zero_le_one (hw x hx'.1 hx'.2)

/-- With positive item weights, a feasible set for budget 0 is empty. -/
lemma fits_zero_empty (weight : List ℤ) {i : ℕ} {s : Finset ℕ}
    (hw : ∀ k, 1 ≤ k → k ≤ i → 1 ≤ weight.getD k 0) (hs : s ⊆ Finset.Icc 1 i)
    (hsw : setWeight weight s ≤ 0) : s = ∅ := by
  by_contra hne
  obtain ⟨k, hk⟩ := Finset.nonempty_of_ne_empty hne
  have hk' := Finset.mem_Icc.mp (hs hk)
  have h1 : weight.getD k 0 ≤ setWeight weight s :=
    Finset.single_le_sum (setWeight_mem_nonneg weight hw hs) hk
  have h2 : (1 : ℤ) ≤ weight.getD k 0 := hw k hk'.1 hk'.2
  linarith

/-- Cell `(i, j)` of the recurrence is the greatest total value over the
subsets of items `1..=i` of total weight at most `j`, provided every item
weight in range is at least 1. -/
lemma Scell_isGreatest (value weight : List ℤ) :
    ∀ i, (∀ k, 1 ≤ k → k ≤ i → 1 ≤ weight.getD k 0) → ∀ j : ℕ,
      IsGreatest {t : ℤ | ∃ s : Finset ℕ, Fits weight i (j : ℤ) s ∧ setValue value s = t}
        (Scell value weight i j) := by
  intro i
  induction i with
  | zero =>
    intro _ j
    constructor
    · exact ⟨∅, ⟨Finset.empty_subset _, by simp [setWeight]⟩, by simp [setValue, Scell]⟩
    · rintro t ⟨s, ⟨hs, -⟩, rfl⟩
      have hse : s = ∅ := Finset.subset_empty.mp (by simpa using hs)
      simp [hse, setValue, Scell]
  | succ i ih =>
    intro hw j
    have ihw : ∀ k, 1 ≤ k → k ≤ i → 1 ≤ weight.getD k 0 := fun k h1 h2 => hw k h1 (by omega)
    have hwi : 1 ≤ weight.getD (i + 1) 0 := hw (i + 1) (by omega) (by omega)
    rcases Nat.eq_zero_or_pos j with hj | hj
    · subst hj
      rw [Scell_zero]
      constructor
      · exact ⟨∅, ⟨Finset.empty_subset _, by simp [setWeight]⟩, by simp [setValue]⟩
      · rintro t ⟨s, ⟨hs, hsw⟩, rfl⟩
        push_cast at hsw
        have hse : s = ∅ := fits_zero_empty weight hw hs hsw
        simp [hse, setValue]
    · rw [Scell_succ, if_neg (Nat.pos_iff_ne_zero.mp hj)]
      by_cases hheavy : weight.getD (i + 1) 0 > (j : ℤ)
      · rw [if_pos hheavy]
        obtain ⟨⟨s₀, hs₀, hv₀⟩, hub₀⟩ := ih ihw j
        constructor
        · exact ⟨s₀, ⟨hs₀.1.trans (Finset.Icc_subset_Icc_right (by omega)), hs₀.2⟩, hv₀⟩
        · rintro t ⟨s, ⟨hs, hsw⟩, rfl⟩
          by_cases hmem : (i + 1) ∈ s
          · exfalso
            have h1 : weight.getD (i + 1) 0 ≤ setWeight weight s :=
              Finset.single_le_sum (setWeight_mem_nonneg weight hw hs) hmem
            linarith
          · have hs' : s ⊆ Finset.Icc 1 i := by
              intro x hx
              have hx' := Finset.mem_Icc.mp (hs hx)
              have hxne : x ≠ i + 1 := fun h => hmem (h ▸ hx)
              exact Finset.mem_Icc.mpr ⟨hx'.1, by omega⟩
            exact hub₀ ⟨s, ⟨hs', hsw⟩, rfl⟩
      · rw [if_neg hheavy]
        push_neg at hheavy
        have hw0 : 0 ≤ weight.getD (i + 1) 0 := le_trans zero_le_one hwi
        have hcast : ((j - (weight.getD (i + 1) 0).toNat : ℕ) : ℤ) =
            (j : ℤ) - weight.getD (i + 1) 0 := by omega
        obtain ⟨⟨s₀, hs₀, hv₀⟩, hub₀⟩ := ih ihw j
        obtain ⟨⟨s₁, hs₁, hv₁⟩, hub₁⟩ := ih ihw (j - (weight.getD (i + 1) 0).toNat)
        have hnm₁ : (i + 1) ∉ s₁ := fun h => by
          have := Finset.mem_Icc.mp (hs₁.1 h); omega
        constructor
        · rcases max_cases (Scell value weight i j)
            (Scell value weight i (j - (weight.getD (i + 1) 0).toNat) +
              value.getD (i + 1) 0) with ⟨hm, -⟩ | ⟨hm, -⟩
          · rw [hm]
            exact ⟨s₀, ⟨hs₀.1.trans (Finset.Icc_subset_Icc_right (by omega)), hs₀.2⟩, hv₀⟩
          · rw [hm]
            refine ⟨insert (i + 1) s₁, ⟨?_, ?_⟩, ?_⟩
            · intro x hx
              rcases Finset.mem_insert.mp hx with h | h
              · exact Finset.mem_Icc.mpr ⟨by omega, by omega⟩
              · have := Finset.mem_Icc.mp (hs₁.1 h)
                exact Finset.mem_Icc.mpr ⟨this.1, by omega⟩
            · rw [setWeight, Finset.sum_insert hnm₁]
              have h2 := hs₁.2
              rw [hcast] at h2
              have : (∑ k ∈ s₁, weight.getD k 0) = setWeight weight s₁ := rfl
              rw [this]
              linarith
            · rw [setValue, Finset.sum_insert hnm₁]
              have : (∑ k ∈ s₁, value.getD k 0) = setValue value s₁ := rfl
              rw [this, hv₁, add_comm]
        · rintro t ⟨s, ⟨hs, hsw⟩, rfl⟩
          by_cases hmem : (i + 1) ∈ s
          · have hs' : s.erase (i + 1) ⊆ Finset.Icc 1 i := by
              intro x hx
              have hxe := Finset.mem_erase.mp hx
              have hx' := Finset.mem_Icc.mp (hs hxe.2)
              exact Finset.mem_Icc.mpr ⟨hx'.1, by omega⟩
            have hsplit : setWeight weight s =
                weight.getD (i + 1) 0 + setWeight weight (s.erase (i + 1)) := by
              rw [setWeight, setWeight]
              exact (Finset.add_sum_erase _ _ hmem).symm
            have hw' : setWeight weight (s.erase (i + 1)) ≤
                ((j - (weight.getD (i + 1) 0).toNat : ℕ) : ℤ) := by
              rw [hcast]; linarith
            have hle := hub₁ ⟨s.erase (i + 1), ⟨hs', hw'⟩, rfl⟩
            have hvsplit : setValue value s =
                value.getD (i + 1) 0 + setValue value (s.erase (i + 1)) := by
              rw [setValue, setValue]
              exact (Finset.add_sum_erase _ _ hmem).symm
            rw [hvsplit]
            exact le_max_of_le_right (by linarith)
          · have hs' : s ⊆ Finset.Icc 1 i := by
              intro x hx
              have hx' := Finset.mem_Icc.mp (hs hx)
              have hxne : x ≠ i + 1 := fun h => hmem (h ▸ hx)
              exact Finset.mem_Icc.mpr ⟨hx'.1, by omega⟩
            exact le_max_of_le_left (hub₀ ⟨s, ⟨hs', hsw⟩, rfl⟩)

/-! Full-fit lemmas: when every item fits together. -/

/-- With weights at least 1, the 1-indexed weight prefix sum dominates the
number of items. -/
lemma sumTo_ge (weight : List ℤ) :
    ∀ i, (∀ k, 1 ≤ k → k ≤ i → 1 ≤ weight.getD k 0) → (i : ℤ) ≤ sumTo weight i := by
  intro i
  induction i with
  | zero => intro _; simp [sumTo]
  | succ i ih =>
    intro hw
    have h1 := ih fun k hk1 hk2 => hw k hk1 (by omega)
    have h2 := hw (i + 1) (by omega) (by omega)
    rw [sumTo]
    push_cast
    linarith

/-- When the whole 1-indexed prefix `1..=i` fits in the budget `j`, the cell
holds the sum of all its values (weights at least 1, values nonnegative). -/
lemma Scell_full (value weight : List ℤ) :
    ∀ i, (∀ k, 1 ≤ k → k ≤ i → 1 ≤ weight.getD k 0) →
      (∀ k, 1 ≤ k → k ≤ i → 0 ≤ value.getD k 0) →
      ∀ j : ℕ, sumTo weight i ≤ (j : ℤ) → Scell value weight i j = sumTo value i := by
  intro i
  induction i with
  | zero => intro _ _ j _; simp [Scell, sumTo]
  | succ i ih =>
    intro hw hv j hj
    have ihw : ∀ k, 1 ≤ k → k ≤ i → 1 ≤ weight.getD k 0 := fun k h1 h2 => hw k h1 (by omega)
    have ihv : ∀ k, 1 ≤ k → k ≤ i → 0 ≤ value.getD k 0 := fun k h1 h2 => hv k h1 (by omega)
    have hgei : (i : ℤ) ≤ sumTo weight i := sumTo_ge weight i ihw
    have hwi : 1 ≤ weight.getD (i + 1) 0 := hw (i + 1) (by omega) (by omega)
    have hvi : 0 ≤ value.getD (i + 1) 0 := hv (i + 1) (by omega) (by omega)
    have hsum : sumTo weight (i + 1) = sumTo weight i + weight.getD (i + 1) 0 := rfl
    have hjpos : j ≠ 0 := by
      intro h
      rw [h] at hj
      push_cast at hj
      linarith
    have hheavy : ¬ weight.getD (i + 1) 0 > (j : ℤ) := by
      push_neg
      linarith
    rw [Scell_succ, if_neg hjpos, if_neg hheavy]
    have hskip : Scell value weight i j = sumTo value i := ih ihw ihv j (by linarith)
    have hcast : ((j - (weight.getD (i + 1) 0).toNat : ℕ) : ℤ) =
        (j : ℤ) - weight.getD (i + 1) 0 := by
      push_neg at hheavy
      omega
    have htake : Scell value weight i (j - (weight.getD (i + 1) 0).toNat) = sumTo value i := by
      apply ih ihw ihv
      rw [hcast]
      linarith
    rw [hskip, htake, sumTo]
    exact max_eq_right (by linarith)

/-- When every item fits together and all values are positive, the
backtracking loop takes every item, producing `[i, i-1, ..., 1]`. -/
lemma buildAux_full (value weight : List ℤ) (Cmax : ℤ) :
    ∀ i, i < value.length →
      (∀ k, 1 ≤ k → k ≤ i → 1 ≤ weight.getD k 0) →
      (∀ k, 1 ≤ k → k ≤ i → 1 ≤ value.getD k 0) →
      ∀ r : ℤ, sumTo weight i ≤ r → r ≤ Cmax →
        buildAux (optimal_subset_value value weight Cmax) weight i r = descRange i := by
  intro i
  induction i with
  | zero => intro _ _ _ r _ _; rfl
  | succ i ih =>
    intro hilen hw hv r hr hrC
    have ihw : ∀ k, 1 ≤ k → k ≤ i → 1 ≤ weight.getD k 0 := fun k h1 h2 => hw k h1 (by omega)
    have ihv : ∀ k, 1 ≤ k → k ≤ i → 1 ≤ value.getD k 0 := fun k h1 h2 => hv k h1 (by omega)
    have hgei : (i : ℤ) ≤ sumTo weight i := sumTo_ge weight i ihw
    have hwi : 1 ≤ weight.getD (i + 1) 0 := hw (i + 1) (by omega) (by omega)
    have hvi : 1 ≤ value.getD (i + 1) 0 := hv (i + 1) (by omega) (by omega)
    have hsum : sumTo weight (i + 1) = sumTo weight i + weight.getD (i + 1) 0 := rfl
    have hr' : sumTo weight i + weight.getD (i + 1) 0 ≤ r := by rw [← hsum]; exact hr
    have hr0 : 0 ≤ r := by linarith
    have hrn : ((r.toNat : ℕ) : ℤ) = r := Int.toNat_of_nonneg hr0
    have hjlt : r.toNat < (Cmax + 1).toNat := by omega
    have htg1 : tget (optimal_subset_value value weight Cmax) (i + 1) r.toNat =
        Scell value weight (i + 1) r.toNat := tget_optimal value weight Cmax hilen hjlt
    have htg0 : tget (optimal_subset_value value weight Cmax) i r.toNat =
        Scell value weight i r.toNat :=
      tget_optimal value weight Cmax (Nat.lt_of_succ_lt hilen) hjlt
    have hfull1 : Scell value weight (i + 1) r.toNat = sumTo value (i + 1) :=
      Scell_full value weight (i + 1) hw
        (fun k h1 h2 => le_trans zero_le_one (hv k h1 h2)) r.toNat (by rw [hrn]; exact hr)
    have hfull0 : Scell value weight i r.toNat = sumTo value i :=
      Scell_full value weight i ihw
        (fun k h1 h2 => le_trans zero_le_one (ihv k h1 h2)) r.toNat
        (by rw [hrn]; linarith)
    have hvsum : sumTo value (i + 1) = sumTo value i + value.getD (i + 1) 0 := rfl
    have hne : Scell value weight (i + 1) r.toNat ≠ Scell value weight i r.toNat := by
      rw [hfull1, hfull0, hvsum]
      intro h
      have : value.getD (i + 1) 0 = 0 := by linarith
      linarith
    rw [buildAux_succ, htg1, htg0, if_pos hne, descRange]
    congr 1
    apply ih (Nat.lt_of_succ_lt hilen) ihw ihv
    · linarith
    · linarith

/-- Total value of the all-items list is the full 1-indexed value sum. -/
lemma itemsValue_descRange (value : List ℤ) :
    ∀ i, itemsValue value (descRange i) = sumTo value i := by
  intro i
  induction i with
  | zero => rfl
  | succ i ih => rw [descRange, itemsValue_cons, ih, sumTo, add_comm]

/-! Zero-capacity lemmas. -/

/-- At capacity 0 the backtracking loop records nothing: every row
comparison in column 0 is a tie. -/
lemma buildAux_zero_cap (value weight : List ℤ) :
    ∀ i, i < value.length →
      buildAux (optimal_subset_value value weight 0) weight i 0 = [] := by
  intro i
  induction i with
  | zero => intro _; rfl
  | succ i ih =>
    intro hilen
    have hjlt : (0 : ℤ).toNat < ((0 : ℤ) + 1).toNat := by omega
    have htg1 : tget (optimal_subset_value value weight 0) (i + 1) (0 : ℤ).toNat =
        Scell value weight (i + 1) (0 : ℤ).toNat := tget_optimal value weight 0 hilen hjlt
    have htg0 : tget (optimal_subset_value value weight 0) i (0 : ℤ).toNat =
        Scell value weight i (0 : ℤ).toNat :=
      tget_optimal value weight 0 (Nat.lt_of_succ_lt hilen) hjlt
    rw [buildAux_succ, htg1, htg0]
    have h0 : ((0 : ℤ).toNat) = 0 := rfl
    rw [h0, Scell_zero, Scell_zero, if_neg (by simp)]
    exact ih (Nat.lt_of_succ_lt hilen)

/-! Claim theorems. -/

/-- C1, counterexample: the claim fails as stated.  The input
`value = [_, 5]`, `weight = [_, 0]`, `capacity = 0` satisfies every stated
precondition (equal lengths, nonnegative entries, capacity ≥ 0), yet cell
`(1, 0)` holds 0 while the subset `{1}` has weight `0 ≤ 0` and value 5:
the fill loops start at column 1, so zero-weight items are invisible in
column 0 (and, through the take-branch lookup, in later columns too). -/
theorem C1_cex :
    Valid [0, 5] [0, 0] 0 ∧
      ¬ IsGreatest
          {t : ℤ | ∃ s : Finset ℕ, Fits [0, 0] 1 ((0 : ℕ) : ℤ) s ∧ setValue [0, 5] s = t}
          (tget (optimal_subset_value [0, 5] [0, 0] 0) 1 0) := by
  refine ⟨by decide, fun hg => ?_⟩
  have h5 : (5 : ℤ) ∈
      {t : ℤ | ∃ s : Finset ℕ, Fits [0, 0] 1 ((0 : ℕ) : ℤ) s ∧ setValue [0, 5] s = t} :=
    ⟨{1}, ⟨by decide, by simp [setWeight]⟩, by simp [setValue]⟩
  have hle := hg.2 h5
  have h0 : tget (optimal_subset_value [0, 5] [0, 0] 0) 1 0 = 0 := by decide
  rw [h0] at hle
  exact absurd hle (by norm_num)

/-- C1 (amended): for every input satisfying the preconditions and in which
additionally every item weight is at least 1, the table built by
`__optimal_subset_value` has dimensions `(n+1) × (capacity+1)` and every
cell `(i, r)` is the greatest total value achievable by a subset of items
`1..=i` of total weight at most `r`.  (The amendment adds positive weights;
`C1_cex` shows that a zero-weight item breaks the claim as stated.) -/
theorem C1_table_cells_optimal (value weight : List ℤ) (Cmax : ℤ)
    (hv : Valid value weight Cmax)
    (hw : ∀ k < value.length, 1 ≤ k → 1 ≤ weight.getD k 0) :
    ((optimal_subset_value value weight Cmax).length = value.length ∧
      ∀ row ∈ optimal_subset_value value weight Cmax, (row.length : ℤ) = Cmax + 1) ∧
    ∀ i < value.length, ∀ j < (Cmax + 1).toNat,
      IsGreatest {t : ℤ | ∃ s : Finset ℕ, Fits weight i ((j : ℕ) : ℤ) s ∧ setValue value s = t}
        (tget (optimal_subset_value value weight Cmax) i j) := by
  obtain ⟨hlen, hpos, hnn, hC⟩ := hv
  refine ⟨⟨optimal_subset_value_length value weight Cmax, ?_⟩, ?_⟩
  · intro row hrow
    rw [optimal_subset_value_row_length value weight Cmax row hrow]
    omega
  · intro i hi j hj
    rw [tget_optimal value weight Cmax hi hj]
    exact Scell_isGreatest value weight i
      (fun k h1 h2 => hw k (lt_of_le_of_lt h2 hi) h1) j

/-- C2: for every valid input, the subset returned by `__build_subset` on
the table built from the same input has total weight at most the capacity
and total value exactly `S[n][capacity]`. -/
theorem C2_reconstruction_sound (value weight : List ℤ) (Cmax : ℤ)
    (hv : Valid value weight Cmax) :
    itemsWeight weight
        (build_subset (optimal_subset_value value weight Cmax) value weight Cmax) ≤ Cmax ∧
      itemsValue value
          (build_subset (optimal_subset_value value weight Cmax) value weight Cmax) =
        tget (optimal_subset_value value weight Cmax) (value.length - 1) Cmax.toNat := by
  obtain ⟨hlen, hpos, hnn, hC⟩ := hv
  have hw : ∀ k < value.length, 1 ≤ k → 0 ≤ weight.getD k 0 :=
    fun k hk h1 => (hnn k hk h1).2
  have hn : value.length - 1 < value.length := by omega
  obtain ⟨hval, hwt⟩ :=
    buildAux_canonical value weight Cmax hC hw (value.length - 1) hn Cmax hC (le_refl Cmax)
  refine ⟨hwt, ?_⟩
  unfold build_subset
  rw [hval, tget_optimal value weight Cmax hn (by omega)]

/-- C3: during reconstruction, whenever `table[i][r]` equals
`table[i-1][r]` at the current remaining capacity `r`, the loop takes the
else-branch, so item `i` is not recorded — even when taking item `i` would
reach the same value.  The subset for the remaining rows is exactly the one
obtained by continuing with `r` unchanged, so `__build_subset`, being a
deterministic function of the table, returns the one canonical subset
fixed by this prefer-not-taken bias. -/
theorem C3_tie_prefers_skip (S : List (List ℤ)) (weight : List ℤ) (i : ℕ) (r : ℤ)
    (h : tget S (i + 1) r.toNat = tget S i r.toNat) :
    buildAux S weight (i + 1) r = buildAux S weight i r ∧
      (i + 1) ∉ buildAux S weight (i + 1) r := by
  have heq : buildAux S weight (i + 1) r = buildAux S weight i r := by
    rw [buildAux_succ, if_neg (fun hne => hne h)]
  refine ⟨heq, ?_⟩
  rw [heq]
  intro hmem
  have := buildAux_mem S weight i r (i + 1) hmem
  omega

/-- C4: the code does not reject invalid input.  On the negative capacity
`-1` (with `value = [_, 1]`, `weight = [_, 1]`), `__optimal_subset_value`
returns the degenerate two-row table of empty rows — no `InvalidInput`
error is raised anywhere (`__init__` stores its arguments unchecked), and
a partial table IS returned, contradicting the claim. -/
theorem C4_invalid_input_not_rejected :
    optimal_subset_value [0, 1] [0, 1] (-1) = [[], []] := by decide

/-- C5, counterexample: the claim fails as stated.  For
`value = [_, 0]`, `weight = [_, 1]`, `capacity = 1` the input is valid and
the capacity covers the total weight, yet the reconstructed subset is
empty rather than `{1}`: taking the zero-valued item ties with skipping
it, and the tie-break drops the item. -/
theorem C5_cex :
    Valid [0, 0] [0, 1] 1 ∧ sumTo [0, 1] 1 ≤ 1 ∧
      build_subset (optimal_subset_value [0, 0] [0, 1] 1) [0, 0] [0, 1] 1 = [] ∧
      (1 : ℕ) ∉ build_subset (optimal_subset_value [0, 0] [0, 1] 1) [0, 0] [0, 1] 1 := by
  exact ⟨by decide, by decide, by decide, by decide⟩

/-- C5 (amended): for every valid input in which additionally every item
value and weight is at least 1 and every item fits together
(`capacity ≥ sum(weight)`), the reconstructed subset is all item indices
`[n, ..., 1]` and its total value is the sum of all values.  (The
amendment adds positivity; `C5_cex` shows a zero value breaks the claim as
stated, and `C1_cex`'s zero-weight item at capacity 0 breaks it too.) -/
theorem C5_all_items_taken (value weight : List ℤ) (Cmax : ℤ)
    (hv : Valid value weight Cmax)
    (hpos : ∀ k < value.length, 1 ≤ k → 1 ≤ value.getD k 0 ∧ 1 ≤ weight.getD k 0)
    (hcap : sumTo weight (value.length - 1) ≤ Cmax) :
    build_subset (optimal_subset_value value weight Cmax) value weight Cmax =
        descRange (value.length - 1) ∧
      itemsValue value
          (build_subset (optimal_subset_value value weight Cmax) value weight Cmax) =
        sumTo value (value.length - 1) := by
  obtain ⟨hlen, hposl, hnn, hC⟩ := hv
  have hn : value.length - 1 < value.length := by omega
  have h1 := buildAux_full value weight Cmax (value.length - 1) hn
    (fun k h1 h2 => (hpos k (by omega) h1).2) (fun k h1 h2 => (hpos k (by omega) h1).1)
    Cmax hcap (le_refl Cmax)
  constructor
  · unfold build_subset
    exact h1
  · unfold build_subset
    rw [h1, itemsValue_descRange]

/-- C6: for every valid input, raising the capacity by 1 never decreases
the optimal value `table[n][capacity]`. -/
theorem C6_capacity_monotone (value weight : List ℤ) (Cmax : ℤ)
    (hv : Valid value weight Cmax) :
    tget (optimal_subset_value value weight Cmax) (value.length - 1) Cmax.toNat ≤
      tget (optimal_subset_value value weight (Cmax + 1)) (value.length - 1)
        (Cmax + 1).toNat := by
  obtain ⟨hlen, hpos, hnn, hC⟩ := hv
  have hn : value.length - 1 < value.length := by omega
  rw [tget_optimal value weight Cmax hn (by omega),
    tget_optimal value weight (Cmax + 1) hn (by omega)]
  exact Scell_mono value weight (value.length - 1) (by omega)

/-- C7: for every valid input with capacity 0, the built table consists
entirely of zeros and the reconstructed subset is empty — a valid output,
produced without any error. -/
theorem C7_zero_capacity (value weight : List ℤ) (hv : Valid value weight 0) :
    (∀ row ∈ optimal_subset_value value weight 0, ∀ x ∈ row, x = 0) ∧
      build_subset (optimal_subset_value value weight 0) value weight 0 = [] := by
  obtain ⟨hlen, hpos, -, -⟩ := hv
  constructor
  · intro row hrow x hx
    simp only [optimal_subset_value, List.mem_map] at hrow
    obtain ⟨i, -, hrw⟩ := hrow
    rw [← hrw] at hx
    simp only [List.mem_map, List.mem_range] at hx
    obtain ⟨j, hj, hxe⟩ := hx
    have hj0 : j = 0 := by omega
    rw [← hxe, hj0, Scell_zero]
  · unfold build_subset
    exact buildAux_zero_cap value weight (value.length - 1) (by omega)

/-- C8: on a valid input, every state `(i, r)` the `__build_subset` loop
visits satisfies `1 ≤ i ≤ n` and `0 ≤ r ≤ Cmax`; both row indices and the
column index are in range of the table, and whenever `S[i][r]` differs
from `S[i-1][r]` item `i` fits (`weight[i] ≤ r`), so `r` never becomes
negative. -/
theorem C8_backtrack_in_bounds (value weight : List ℤ) (Cmax : ℤ)
    (hv : Valid value weight Cmax) :
    ∀ p ∈ backtrackStates (optimal_subset_value value weight Cmax) weight
        (value.length - 1) Cmax,
      1 ≤ p.1 ∧ p.1 ≤ value.length - 1 ∧ 0 ≤ p.2 ∧ p.2 ≤ Cmax ∧
        p.1 < (optimal_subset_value value weight Cmax).length ∧
        p.2.toNat < (Cmax + 1).toNat ∧
        (tget (optimal_subset_value value weight Cmax) p.1 p.2.toNat ≠
            tget (optimal_subset_value value weight Cmax) (p.1 - 1) p.2.toNat →
          weight.getD p.1 0 ≤ p.2) := by
  intro p hp
  obtain ⟨hlen, hpos, hnn, hC⟩ := hv
  have hw : ∀ k < value.length, 1 ≤ k → 0 ≤ weight.getD k 0 :=
    fun k hk h1 => (hnn k hk h1).2
  have hn : value.length - 1 < value.length := by omega
  obtain ⟨h1, h2, h3, h4, h5⟩ :=
    backtrackStates_canonical value weight Cmax hC hw (value.length - 1) hn Cmax hC
      (le_refl Cmax) p hp
  refine ⟨h1, h2, h3, h4, ?_, by omega, h5⟩
  rw [optimal_subset_value_length]
  omega

/-- C9: `solve` hits the division `total_weight / capacity_max` on the
capacity-utilization line only after the table and subset are computed;
with `capacity_max = 0` (an otherwise harmless input — see C7) it raises
`ZeroDivisionError`, while for every valid input with positive capacity it
completes normally. -/
theorem C9_solve_zero_division (value weight : List ℤ) (capacity_max : ℤ) :
    (capacity_max = 0 → solve value weight capacity_max = Except.error "ZeroDivisionError") ∧
      (Valid value weight capacity_max → 0 < capacity_max →
        ∃ st : SolveStats, solve value weight capacity_max = Except.ok st) := by
  constructor
  · intro h
    subst h
    rfl
  · intro _ hcpos
    unfold solve
    split
    · omega
    · exact ⟨_, rfl⟩

/-- C10: for every table and input, the list `__build_subset` returns has
all indices between 1 and `n = len(value) - 1`, in strictly decreasing
order (item `n` examined and emitted first, item 1 last), hence without
duplicates. -/
theorem C10_subset_indices (S : List (List ℤ)) (value weight : List ℤ) (Cmax : ℤ) :
    (∀ k ∈ build_subset S value weight Cmax, 1 ≤ k ∧ k ≤ value.length - 1) ∧
      (build_subset S value weight Cmax).Pairwise (fun a b => b < a) ∧
      (build_subset S value weight Cmax).Nodup := by
  refine ⟨fun k hk => buildAux_mem S weight (value.length - 1) Cmax k hk,
    buildAux_pairwise S weight (value.length - 1) Cmax, ?_⟩
  exact List.Pairwise.imp (fun h => by omega)
    (buildAux_pairwise S weight (value.length - 1) Cmax)

/-! Witnesses: the conditional claim theorems applied at concrete inputs. -/

/-- Witness for C1 on `value = [_, 2]`, `weight = [_, 1]`, `capacity = 1`. -/
theorem C1_witness :
    IsGreatest {t : ℤ | ∃ s : Finset ℕ, Fits [0, 1] 1 ((1 : ℕ) : ℤ) s ∧ setValue [0, 2] s = t}
      (tget (optimal_subset_value [0, 2] [0, 1] 1) 1 1) :=
  (C1_table_cells_optimal [0, 2] [0, 1] 1 (by decide) (by decide)).2 1 (by decide) 1 (by decide)

/-- Witness for C2 on `value = [_, 2]`, `weight = [_, 1]`, `capacity = 1`. -/
theorem C2_witness :
    itemsWeight [0, 1]
        (build_subset (optimal_subset_value [0, 2] [0, 1] 1) [0, 2] [0, 1] 1) ≤ 1 ∧
      itemsValue [0, 2]
          (build_subset (optimal_subset_value [0, 2] [0, 1] 1) [0, 2] [0, 1] 1) =
        tget (optimal_subset_value [0, 2] [0, 1] 1) 1 1 :=
  C2_reconstruction_sound [0, 2] [0, 1] 1 (by decide)

/-- Witness for C3: with `value = weight = [_, 1, 1]` and remaining
capacity 1, rows 2 and 1 tie at column 1, and item 2 is skipped. -/
theorem C3_witness :
    buildAux (optimal_subset_value [0, 1, 1] [0, 1, 1] 1) [0, 1, 1] 2 1 =
        buildAux (optimal_subset_value [0, 1, 1] [0, 1, 1] 1) [0, 1, 1] 1 1 ∧
      2 ∉ buildAux (optimal_subset_value [0, 1, 1] [0, 1, 1] 1) [0, 1, 1] 2 1 :=
  C3_tie_prefers_skip (optimal_subset_value [0, 1, 1] [0, 1, 1] 1) [0, 1, 1] 1 1 (by decide)

/-- Witness for C5 on `value = [_, 2]`, `weight = [_, 1]`, `capacity = 1`. -/
theorem C5_witness :
    build_subset (optimal_subset_value [0, 2] [0, 1] 1) [0, 2] [0, 1] 1 = descRange 1 ∧
      itemsValue [0, 2]
          (build_subset (optimal_subset_value [0, 2] [0, 1] 1) [0, 2] [0, 1] 1) =
        sumTo [0, 2] 1 :=
  C5_all_items_taken [0, 2] [0, 1] 1 (by decide) (by decide) (by decide)

/-- Witness for C6 on `value = [_, 2]`, `weight = [_, 1]`, `capacity = 1`. -/
theorem C6_witness :
    tget (optimal_subset_value [0, 2] [0, 1] 1) 1 1 ≤
      tget (optimal_subset_value [0, 2] [0, 1] 2) 1 2 :=
  C6_capacity_monotone [0, 2] [0, 1] 1 (by decide)

/-- Witness for C7 on `value = [_, 1]`, `weight = [_, 1]`, capacity 0. -/
theorem C7_witness :
    build_subset (optimal_subset_value [0, 1] [0, 1] 0) [0, 1] [0, 1] 0 = [] :=
  (C7_zero_capacity [0, 1] [0, 1] (by decide)).2

/-- Witness for C8 on `value = [_, 2]`, `weight = [_, 1]`, `capacity = 1`,
at the single visited state `(1, 1)`. -/
theorem C8_witness :
    1 ≤ ((1, (1 : ℤ)) : ℕ × ℤ).1 ∧
      ((1, (1 : ℤ)) : ℕ × ℤ).1 ≤ ([0, 2] : List ℤ).length - 1 ∧
      0 ≤ ((1, (1 : ℤ)) : ℕ × ℤ).2 ∧ ((1, (1 : ℤ)) : ℕ × ℤ).2 ≤ 1 ∧
      ((1, (1 : ℤ)) : ℕ × ℤ).1 < (optimal_subset_value [0, 2] [0, 1] 1).length ∧
      ((1, (1 : ℤ)) : ℕ × ℤ).2.toNat < ((1 : ℤ) + 1).toNat ∧
      (tget (optimal_subset_value [0, 2] [0, 1] 1) ((1, (1 : ℤ)) : ℕ × ℤ).1
            ((1, (1 : ℤ)) : ℕ × ℤ).2.toNat ≠
          tget (optimal_subset_value [0, 2] [0, 1] 1) (((1, (1 : ℤ)) : ℕ × ℤ).1 - 1)
            ((1, (1 : ℤ)) : ℕ × ℤ).2.toNat →
        ([0, 1] : List ℤ).getD ((1, (1 : ℤ)) : ℕ × ℤ).1 0 ≤ ((1, (1 : ℤ)) : ℕ × ℤ).2) :=
  C8_backtrack_in_bounds [0, 2] [0, 1] 1 (by decide) (1, 1) (by decide)

/-- Witness for C9: capacity 0 raises, capacity 1 completes. -/
theorem C9_witness :
    solve [0, 2] [0, 1] 0 = Except.error "ZeroDivisionError" ∧
      ∃ st : SolveStats, solve [0, 2] [0, 1] 1 = Except.ok st :=
  ⟨(C9_solve_zero_division [0, 2] [0, 1] 0).1 rfl,
    (C9_solve_zero_division [0, 2] [0, 1] 1).2 (by decide) (by decide)⟩

end Museum
